import Mathlib

/-!
Verification of the path-decomposition core of `spacedrive`
(`src/core/src/location/file_path_helper/isolated_file_path_data.rs`).

The Rust code works on UTF-8 strings sliced at byte indices that are always
positions of the ASCII characters '/' and '.', so strings are embedded as
`List Char`.  A Rust slice `s[a..b]` panics when `a > b` or `b > s.len()`;
panicking operations are embedded in `Option`, with `none` for the panic.
Filesystem paths (`std::path::Path`) are embedded as lists of components
(`OsStr`), each either valid text or an undecodable blob, which is the level
of abstraction at which `strip_prefix`, `parent`, `file_stem` and
`extension` operate.  Machine integers: `location_id` is an `i32` used only
as an opaque identifier, embedded as `Int`.
-/

/-- Shorthand: the character list of a string literal. -/
def strOf (s : String) : List Char := s.toList

/-- ASCII lowercasing of one character, the fragment of Rust's
`char::to_lowercase` exercised by this code (extensions of interest are
ASCII). -/
def charToLower (c : Char) : Char :=
  if 65 ≤ c.toNat ∧ c.toNat ≤ 90 then Char.ofNat (c.toNat + 32) else c

/-- ASCII uppercasing of one character (used to embed the `(?i)` regex
flag). -/
def charToUpper (c : Char) : Char :=
  if 97 ≤ c.toNat ∧ c.toNat ≤ 122 then Char.ofNat (c.toNat - 32) else c

/-- Embedding of Rust `str::to_lowercase` on the ASCII fragment. -/
def toLowerStr (s : List Char) : List Char := s.map charToLower

/-- Embedding of `str::replace('\\', "/")`. -/
def replaceBackslash (s : List Char) : List Char :=
  s.map fun c => if c = '\\' then '/' else c

/-- Embedding of Rust `str::rfind(char)`: the index of the last occurrence. -/
def rfindIdx : List Char → Char → Option Nat
  | [], _ => none
  | a :: as, c =>
    match rfindIdx as c with
    | some i => some (i + 1)
    | none => if a = c then some 0 else none

/-- Embedding of Rust `str::ends_with(char)`. -/
def endsWithChar (s : List Char) (c : Char) : Bool := s.getLast? == some c

/-- Rust string slice `s[a..b]`: `none` exactly when the slice would panic
(`a > b` or `b > s.len()`).  `s[a..]` is `slice? s a s.length` and `s[..b]`
is `slice? s 0 b`. -/
def slice? (l : List Char) (a b : Nat) : Option (List Char) :=
  if a ≤ b ∧ b ≤ l.length then some ((l.take b).drop a) else none

/-- Decidable equality for `Except`, so concrete runs of the fallible
operations can be settled by `decide`. -/
instance {ε α : Type} [DecidableEq ε] [DecidableEq α] :
    DecidableEq (Except ε α) := fun x y =>
  match x, y with
  | .ok a, .ok b =>
    if h : a = b then isTrue (congrArg Except.ok h)
    else isFalse fun he => h (Except.ok.inj he)
  | .error a, .error b =>
    if h : a = b then isTrue (congrArg Except.error h)
    else isFalse fun he => h (Except.error.inj he)
  | .ok _, .error _ => isFalse fun he => Except.noConfusion he
  | .error _, .ok _ => isFalse fun he => Except.noConfusion he

/-- A path component: either valid UTF-8 text or a blob of bytes that cannot
be decoded (`OsStr::to_str` returns `None` on it). -/
inductive OsStr where
  | utf8 (s : List Char)
  | blob (id : Nat)
deriving DecidableEq, Repr

/-- Embedding of `OsStr::to_str`. -/
def OsStr.toStr? : OsStr → Option (List Char)
  | .utf8 s => some s
  | .blob _ => none

/-- Decode every component of a relative path, `none` if any is a blob. -/
def allUtf8? : List OsStr → Option (List (List Char))
  | [] => some []
  | c :: rest =>
    match c.toStr?, allUtf8? rest with
    | some s, some t => some (s :: t)
    | _, _ => none

/-- Join decoded components with '/', as `Path::to_str` renders a relative
path on Unix. -/
def joinSlash : List (List Char) → List Char
  | [] => []
  | [s] => s
  | s :: rest => s ++ '/' :: joinSlash rest

/-- Embedding of `Path::to_str` on a relative path given as components. -/
def osJoin? (l : List OsStr) : Option (List Char) := (allUtf8? l).map joinSlash

/-- Every component of the path can be represented as text. -/
def representable (l : List OsStr) : Bool := l.all fun c => c.toStr?.isSome

/-- Embedding of `Path::strip_prefix` (component-wise). -/
def stripRoot? (root p : List OsStr) : Option (List OsStr) :=
  if root.isPrefixOf p then some (p.drop root.length) else none

/-- The error type, restricted to the variants this file produces
(`FilePathError::UnableToExtractMaterializedPath`, the wrapped
`NonUtf8PathError`, and `FilePathError::InvalidFilenameAndExtension`). -/
inductive FilePathError where
  | unableToExtractMaterializedPath (location_id : Int) (path : List OsStr)
  | nonUtf8Path (path : List OsStr)
  | invalidFilenameAndExtension (source : List Char)
deriving DecidableEq, Repr

/-- Embedding of the struct `IsolatedFilePathData` (lines 24-33).  `Cow`
borrowing is irrelevant to the values, so every field is plain text. -/
structure IsolatedFilePathData where
  location_id : Int
  materialized_path : List Char
  is_dir : Bool
  name : List Char
  extension : List Char
  relative_path : List Char
deriving DecidableEq, Repr

/-- The `#[derive(PartialEq)]` on the struct: field-wise comparison of all
six fields, `relative_path` included. -/
def beqIsolatedFilePathData (a b : IsolatedFilePathData) : Bool :=
  a.location_id == b.location_id
    && a.materialized_path == b.materialized_path
    && a.is_dir == b.is_dir
    && a.name == b.name
    && a.extension == b.extension
    && a.relative_path == b.relative_path

/-- Embedding of `Path::file_stem` on one component: the part before the
last '.', the whole component when there is no dot or only a leading dot.  A
blob component has a stem that is again undecodable. -/
def componentStem : OsStr → OsStr
  | .utf8 s =>
    match rfindIdx s '.' with
    | some i => if i = 0 then .utf8 s else .utf8 (s.take i)
    | none => .utf8 s
  | .blob n => .blob n

/-- Embedding of `Path::extension` on one component: the part after the last
'.', absent when there is no dot or only a leading dot.  Blob components are
modelled as having no decodable extension. -/
def componentExtension? : OsStr → Option OsStr
  | .utf8 s =>
    match rfindIdx s '.' with
    | some i => if i = 0 then none else some (.utf8 (s.drop (i + 1)))
    | none => none
  | .blob _ => none

/-- `Path::file_stem` of a whole path: the stem of its last component. -/
def pathFileStem? (p : List OsStr) : Option OsStr := p.getLast?.map componentStem

/-- `Path::extension` of a whole path: the extension of its last component. -/
def pathExtension? (p : List OsStr) : Option OsStr :=
  p.getLast?.bind componentExtension?

/-- Embedding of `IsolatedFilePathData::prepare_name` (lines 260-266):
`path.file_stem().unwrap_or_default().to_str().unwrap_or_default()`. -/
def prepareName (p : List OsStr) : List Char :=
  (((pathFileStem? p).getD (.utf8 [])).toStr?).getD []

/-- Embedding of `extract_relative_path` (lines 465-483). -/
def extract_relative_path (location_id : Int) (location_path path : List OsStr) :
    Except FilePathError (List Char) :=
  match stripRoot? location_path path with
  | none => .error (.unableToExtractMaterializedPath location_id path)
  | some relative =>
    match osJoin? relative with
    | some s => .ok (replaceBackslash s)
    | none => .error (.nonUtf8Path path)

/-- Embedding of `extract_normalized_materialized_path_str` (lines 487-514):
strip the root, take the remainder's parent (`Path::parent`: `none` on the
empty path, otherwise drop the last component), join and frame with '/'. -/
def extract_normalized_materialized_path_str (location_id : Int)
    (location_path path : List OsStr) : Except FilePathError (List Char) :=
  match stripRoot? location_path path with
  | none => .error (.unableToExtractMaterializedPath location_id path)
  | some relative =>
    match relative with
    | [] => .ok ['/']
    | _ =>
      match osJoin? relative.dropLast with
      | some s =>
        .ok (if s ≠ [] then '/' :: (replaceBackslash s ++ ['/']) else ['/'])
      | none => .error (.nonUtf8Path path)

/-- The two extractions together, in the order `IsolatedFilePathData::new`
performs them (materialized path first): the `normalize` operation of the
spec's PathNormalizer. -/
def normalizePath (location_id : Int) (location_path path : List OsStr) :
    Except FilePathError (List Char × List Char) := do
  let mp ← extract_normalized_materialized_path_str location_id location_path path
  let rel ← extract_relative_path location_id location_path path
  pure (mp, rel)

/-- Embedding of `IsolatedFilePathData::new` (lines 36-77): the extension is
computed (files only) from the path's own extension, lowercased; the name is
the file stem, forced empty when the full path is the location root. -/
def IsolatedFilePathData.new (location_id : Int)
    (location_path full_path : List OsStr) (is_dir : Bool) :
    Except FilePathError IsolatedFilePathData := do
  let extension : List Char :=
    if is_dir then []
    else toLowerStr ((((pathExtension? full_path).getD (.utf8 [])).toStr?).getD [])
  let mp ← extract_normalized_materialized_path_str location_id location_path full_path
  let name : List Char :=
    if location_path ≠ full_path then prepareName full_path else []
  let rel ← extract_relative_path location_id location_path full_path
  pure ⟨location_id, mp, is_dir, name, extension, rel⟩

/-- Embedding of `separate_path_name_and_extension_from_str` (lines 214-258).
Every Rust byte-slice is taken through `slice?`, so `none` marks the inputs
on which the Rust code panics. -/
def IsolatedFilePathData.separate_path_name_and_extension_from_str
    (source : List Char) (is_dir : Bool) :
    Option (List Char × Option (List Char) × Option (List Char)) :=
  let length := source.length
  if length = 1 then
    some (source, none, none)
  else if is_dir then
    let last_char_idx := if endsWithChar source '/' then length - 1 else length
    match slice? source 0 last_char_idx with
    | none => none
    | some sub =>
      let first_name_char_idx := (rfindIdx sub '/').getD 0 + 1
      match slice? source 0 first_name_char_idx,
            slice? source first_name_char_idx last_char_idx with
      | some mp, some nm => some (mp, some nm, none)
      | _, _ => none
  else
    let first_name_char_idx := (rfindIdx source '/').getD 0 + 1
    match slice? source first_name_char_idx length with
    | none => none
    | some tail =>
      let end_idx := first_name_char_idx - 1
      match rfindIdx tail '.' with
      | some j =>
        let last_dot_idx := first_name_char_idx + j
        match slice? source 0 end_idx,
              slice? source first_name_char_idx last_dot_idx,
              slice? source (last_dot_idx + 1) length with
        | some mp, some nm, some ex => some (mp, some nm, some ex)
        | _, _, _ => none
      | none =>
        match slice? source 0 end_idx,
              slice? source first_name_char_idx length with
        | some mp, some nm => some (mp, some nm, none)
        | _, _ => none

/-- Embedding of `IsolatedFilePathData::from_relative_str` (lines 130-147). -/
def IsolatedFilePathData.from_relative_str (location_id : Int)
    (relative_file_path_str : List Char) : Option IsolatedFilePathData :=
  let is_dir := endsWithChar relative_file_path_str '/'
  (IsolatedFilePathData.separate_path_name_and_extension_from_str
      relative_file_path_str is_dir).map
    fun r =>
      ⟨location_id, r.1, is_dir, (r.2.1).getD [], (r.2.2).getD [],
        relative_file_path_str⟩

/-- Embedding of `assemble_relative_path` (lines 516-528): `none` when the
slice `materialized_path[1..]` would panic (empty input). -/
def assemble_relative_path (materialized_path name extension : List Char)
    (is_dir : Bool) : Option (List Char) :=
  match slice? materialized_path 1 materialized_path.length with
  | none => none
  | some tail =>
    if is_dir = false ∧ extension ≠ [] then some (tail ++ name ++ '.' :: extension)
    else some (tail ++ name)

/-- Embedding of `IsolatedFilePathData::from_db_data` (lines 268-288). -/
def IsolatedFilePathData.from_db_data (location_id : Int) (is_dir : Bool)
    (materialized_path name extension : List Char) : Option IsolatedFilePathData :=
  (assemble_relative_path materialized_path name extension is_dir).map
    fun rel => ⟨location_id, materialized_path, is_dir, name, extension, rel⟩

/-- Embedding of `IsolatedFilePathData::parent` (lines 104-128): `none` where
the Rust code panics (the `.expect` on a materialized path with no inner '/',
and the underflow of `len() - 1` on an empty one — both only reachable on a
malformed materialized path). -/
def IsolatedFilePathData.parent (self : IsolatedFilePathData) :
    Option IsolatedFilePathData :=
  if self.materialized_path = ['/'] then
    some ⟨self.location_id, ['/'], true, [], [], []⟩
  else
    let trailing_slash_idx := self.materialized_path.length - 1
    match rfindIdx (self.materialized_path.take trailing_slash_idx) '/' with
    | none => none
    | some last_slash_idx =>
      some ⟨self.location_id,
        self.materialized_path.take (last_slash_idx + 1), true,
        (self.materialized_path.take trailing_slash_idx).drop (last_slash_idx + 1),
        [],
        (self.materialized_path.take trailing_slash_idx).drop 1⟩

/-- Embedding of `separate_name_and_extension_from_str` (lines 167-187);
`MAIN_SEPARATOR` is '/' on Unix. -/
def IsolatedFilePathData.separate_name_and_extension_from_str
    (source : List Char) : Except FilePathError (List Char × List Char) :=
  if source.contains '/' then
    .error (.invalidFilenameAndExtension source)
  else
    match rfindIdx source '.' with
    | some last_dot_idx =>
      if last_dot_idx = 0 then .ok (source, [])
      else .ok (source.take last_dot_idx, source.drop (last_dot_idx + 1))
    | none => .ok (source, [])

/-- Word character of the regex class `\w` on the ASCII fragment. -/
def isWordChar (c : Char) : Bool := c.isAlphanum || c = '_'

/-- States of the tail automaton for the regex `(\.\w+)*$`. -/
inductive DotGroupState where
  | boundary
  | afterDot
  | inWord
deriving DecidableEq, Repr

/-- One step of the `(\.\w+)*$` automaton. -/
def dotGroupStep : DotGroupState → Char → Option DotGroupState
  | .boundary, c => if c = '.' then some .afterDot else none
  | .afterDot, c => if isWordChar c then some .inWord else none
  | .inWord, c =>
    if c = '.' then some .afterDot
    else if isWordChar c then some .inWord else none

/-- Run of the `(\.\w+)*$` automaton; accepting at a group boundary or after
at least one word character of a group. -/
def dotGroupRun : DotGroupState → List Char → Bool
  | s, [] => s = .boundary ∨ s = .inWord
  | s, c :: rest =>
    match dotGroupStep s c with
    | some s2 => dotGroupRun s2 rest
    | none => false

/-- Embedding of the first Windows pattern,
`(?i)^(CON|PRN|AUX|NUL|COM[1-9]|LPT[1-9])(\.\w+)*$` (line 196): uppercase
the whole name (the `(?i)` flag), match a reserved device name, then the
dot groups. -/
def matchesReservedDevice (s : List Char) : Bool :=
  let u := s.map charToUpper
  (decide (u.take 3 = strOf "CON" ∨ u.take 3 = strOf "PRN" ∨
      u.take 3 = strOf "AUX" ∨ u.take 3 = strOf "NUL")
    && dotGroupRun .boundary (u.drop 3))
  || ((u.take 3 == strOf "COM" || u.take 3 == strOf "LPT")
    && (match u.drop 3 with
        | c :: rest =>
          decide (49 ≤ c.toNat) && decide (c.toNat ≤ 57)
            && dotGroupRun .boundary rest
        | [] => false))

/-- Character class of the second Windows pattern,
`[<>:"/\\|?*\u0000-1]` (line 197): the nine listed characters or any
code point up to 0x31 inclusive. -/
def isForbiddenCharWindows (c : Char) : Bool :=
  ['<', '>', ':', '"', '/', '\\', '|', '?', '*'].contains c
    || decide (c.toNat ≤ 0x31)

/-- Embedding of `accept_file_name` (lines 189-212) under the
`target_os = "windows"` branch: the name is accepted when neither pattern
matches. -/
def accept_file_name_windows (name : List Char) : Bool :=
  !(matchesReservedDevice name || name.any isForbiddenCharWindows)

/-- Embedding of `accept_file_name` under the non-Windows branch, pattern
`/|\x00`. -/
def accept_file_name_unix (name : List Char) : Bool :=
  !(name.any fun c => c = '/' || c.toNat = 0)

/-- The root key of a location: directory flag set, materialized path
exactly "/", empty name, extension and relative path. -/
def rootKey (location_id : Int) : IsolatedFilePathData :=
  ⟨location_id, ['/'], true, [], [], []⟩

/-- Claim C1 (code_bug evaluation): the round trip fails at the failing
input.  `from_db_data(1, false, "/", "file", "txt")` stores relative path
"file.txt", but `from_relative_str(1, "file.txt")` rebuilds materialized
path "" (not "/") and name "ile" (not "file"), because the file branch of
`separate_path_name_and_extension_from_str` starts the name at index
`rfind('/').unwrap_or(0) + 1 = 1` when the text has no slash. -/
theorem claim_C1_round_trip_bug_eval :
    IsolatedFilePathData.from_db_data 1 false (strOf "/") (strOf "file") (strOf "txt")
      = some ⟨1, strOf "/", false, strOf "file", strOf "txt", strOf "file.txt"⟩ ∧
    IsolatedFilePathData.from_relative_str 1 (strOf "file.txt")
      = some ⟨1, [], false, strOf "ile", strOf "txt", strOf "file.txt"⟩ ∧
    strOf "ile" ≠ strOf "file" ∧ ([] : List Char) ≠ strOf "/" := by decide

/-- Claim C2 (code_bug evaluation): `from_relative_str` breaks the framing
invariant — on the ordinary relative path "dir/file.txt" it produces the
materialized path "dir", which neither begins nor ends with '/'. -/
theorem claim_C2_framing_bug_eval :
    IsolatedFilePathData.from_relative_str 1 (strOf "dir/file.txt")
      = some ⟨1, strOf "dir", false, strOf "file", strOf "txt", strOf "dir/file.txt"⟩ ∧
    (strOf "dir").head? ≠ some '/' ∧ (strOf "dir").getLast? ≠ some '/' := by decide

/-- Claim C3 (counterexample): `from_relative_str` does not lowercase — the
input "a/file.TXT" yields the extension "TXT" unchanged, which is not
lowercase. -/
theorem claim_C3_counterexample :
    IsolatedFilePathData.from_relative_str 1 (strOf "a/file.TXT")
      = some ⟨1, strOf "a", false, strOf "file", strOf "TXT", strOf "a/file.TXT"⟩ ∧
    toLowerStr (strOf "TXT") ≠ strOf "TXT" := by decide

/-- Claim C4 (counterexample): two keys agreeing on location, materialized
path, directory flag, name and extension but differing in relative path are
NOT treated as equal — the derived `PartialEq` compares all six fields. -/
theorem claim_C4_counterexample :
    beqIsolatedFilePathData
        ⟨1, strOf "/", false, strOf "a", strOf "txt", strOf "a.txt"⟩
        ⟨1, strOf "/", false, strOf "a", strOf "txt", strOf "zzz"⟩ = false ∧
    strOf "a.txt" ≠ strOf "zzz" := by decide

/-- Claim C4 (amended): equality includes `relative_path`: keys that agree on
the other five fields but differ in `relative_path` compare unequal. -/
theorem claim_C4_amended (a b : IsolatedFilePathData)
    (h1 : a.location_id = b.location_id)
    (h2 : a.materialized_path = b.materialized_path)
    (h3 : a.is_dir = b.is_dir) (h4 : a.name = b.name)
    (h5 : a.extension = b.extension)
    (h6 : a.relative_path ≠ b.relative_path) :
    beqIsolatedFilePathData a b = false := by
  simp [beqIsolatedFilePathData, h1, h2, h3, h4, h5, h6]

/-- Claim C4 (witness): the amended statement at a concrete pair of keys. -/
theorem claim_C4_witness :
    beqIsolatedFilePathData
        ⟨7, strOf "/d/", true, strOf "d2", [], strOf "d/d2"⟩
        ⟨7, strOf "/d/", true, strOf "d2", [], strOf "other"⟩ = false :=
  claim_C4_amended _ _ rfl rfl rfl rfl rfl (by decide)

/-- Claim C5 (counterexample): with root "r" and path "r/my.dir/f.txt", the
parent of the constructed file key has name "my.dir", while constructing the
containing directory "r/my.dir" directly gives name "my" (its file stem), so
the two keys differ. -/
theorem claim_C5_counterexample :
    (IsolatedFilePathData.new 1 [.utf8 (strOf "r")]
        [.utf8 (strOf "r"), .utf8 (strOf "my.dir"), .utf8 (strOf "f.txt")] false).map
      IsolatedFilePathData.parent
      = .ok (some ⟨1, strOf "/", true, strOf "my.dir", [], strOf "my.dir"⟩) ∧
    IsolatedFilePathData.new 1 [.utf8 (strOf "r")]
        [.utf8 (strOf "r"), .utf8 (strOf "my.dir")] true
      = .ok ⟨1, strOf "/", true, strOf "my", [], strOf "my.dir"⟩ ∧
    (⟨1, strOf "/", true, strOf "my.dir", [], strOf "my.dir"⟩ : IsolatedFilePathData)
      ≠ ⟨1, strOf "/", true, strOf "my", [], strOf "my.dir"⟩ := by decide

/-- Claim C6 (counterexample): on "dir/.bashrc" with `is_dir = false` the
hidden-file rule is NOT applied: the code returns name "" and extension
"bashrc", not name ".bashrc" with no extension as the bare splitter would
(last conjunct). -/
theorem claim_C6_counterexample :
    IsolatedFilePathData.separate_path_name_and_extension_from_str
        (strOf "dir/.bashrc") false
      = some (strOf "dir", some [], some (strOf "bashrc")) ∧
    IsolatedFilePathData.separate_path_name_and_extension_from_str
        (strOf "dir/.bashrc") false
      ≠ some (strOf "dir", some (strOf ".bashrc"), none) ∧
    IsolatedFilePathData.separate_path_name_and_extension_from_str
        (strOf "dir/.bashrc") false
      ≠ some (strOf "dir", some (strOf ".bashrc"), some []) ∧
    IsolatedFilePathData.separate_name_and_extension_from_str (strOf ".bashrc")
      = .ok (strOf ".bashrc", []) := by decide

/-- Claim C7 (counterexample): "report.txt" is rejected by the constrained
policy, because '.' has code point 0x2E, inside the range 0-0x31 of the
character-class pattern. -/
theorem claim_C7_counterexample :
    accept_file_name_windows (strOf "report.txt") = false := by decide

/-- Claim C7 (amended): `accept_file_name("CON.txt")` is false, but
`accept_file_name("report.txt")` is also false (the '.' falls in the 0-0x31
code-point range); a name free of such characters, "report", is accepted. -/
theorem claim_C7_amended :
    accept_file_name_windows (strOf "CON.txt") = false ∧
    accept_file_name_windows (strOf "report.txt") = false ∧
    accept_file_name_windows (strOf "report") = true := by decide

/-- Claim C8 (confirmed): `parent` of the root key is the root key itself,
hence `parent` is idempotent at the root. -/
theorem claim_C8_root_fixed_point (location_id : Int) :
    (rootKey location_id).parent = some (rootKey location_id) := rfl

/-! Helper lemmas about the string and path primitives. -/

theorem charToLower_idem (c : Char) : charToLower (charToLower c) = charToLower c := by
  unfold charToLower
  by_cases h : 65 ≤ c.toNat ∧ c.toNat ≤ 90
  · rw [if_pos h]
    have hv : (c.toNat + 32).isValidChar := Or.inl (by omega)
    have ht : (Char.ofNat (c.toNat + 32)).toNat = c.toNat + 32 := by
      unfold Char.ofNat
      rw [dif_pos hv]
      rfl
    rw [if_neg (by rw [ht]; omega)]
  · rw [if_neg h, if_neg h]

theorem toLowerStr_idem (s : List Char) : toLowerStr (toLowerStr s) = toLowerStr s := by
  unfold toLowerStr
  rw [List.map_map]
  exact List.map_congr_left fun c _ => charToLower_idem c

theorem take_len_append {α : Type} (l₁ l₂ : List α) (n : Nat) :
    (l₁ ++ l₂).take (l₁.length + n) = l₁ ++ l₂.take n := by
  induction l₁ with
  | nil => simp
  | cons a l ih =>
    simp only [List.cons_append, List.length_cons]
    rw [Nat.add_right_comm, List.take_succ_cons, ih]

theorem drop_len_append {α : Type} (l₁ l₂ : List α) (n : Nat) :
    (l₁ ++ l₂).drop (l₁.length + n) = l₂.drop n := by
  induction l₁ with
  | nil => simp
  | cons a l ih =>
    simp only [List.cons_append, List.length_cons]
    rw [Nat.add_right_comm, List.drop_succ_cons, ih]

theorem rfindIdx_lt_length {l : List Char} {c : Char} {i : Nat}
    (h : rfindIdx l c = some i) : i < l.length := by
  induction l generalizing i with
  | nil => simp [rfindIdx] at h
  | cons a as ih =>
    rw [rfindIdx] at h
    cases hr : rfindIdx as c with
    | some j =>
      rw [hr] at h
      cases h
      have := ih hr
      simp only [List.length_cons]
      omega
    | none =>
      rw [hr] at h
      by_cases hc : a = c
      · rw [if_pos hc] at h
        cases h
        simp
      · rw [if_neg hc] at h
        cases h

theorem rfindIdx_eq_none_of_not_mem {l : List Char} {c : Char} (h : c ∉ l) :
    rfindIdx l c = none := by
  induction l with
  | nil => rfl
  | cons a as ih =>
    have hne : ¬(a = c) := fun he => h (by rw [← he]; exact List.mem_cons_self a as)
    rw [rfindIdx, ih (fun hm => h (List.mem_cons_of_mem a hm)), if_neg hne]

theorem rfindIdx_append_right {ys : List Char} {c : Char} {i : Nat}
    (xs : List Char) (h : rfindIdx ys c = some i) :
    rfindIdx (xs ++ ys) c = some (xs.length + i) := by
  induction xs with
  | nil => simpa using h
  | cons a as ih =>
    rw [List.cons_append, rfindIdx, ih]
    simp only [List.length_cons]
    congr 1
    omega

theorem rfindIdx_append_left {ys : List Char} {c : Char}
    (xs : List Char) (h : c ∉ ys) :
    rfindIdx (xs ++ ys) c = rfindIdx xs c := by
  induction xs with
  | nil => simpa using rfindIdx_eq_none_of_not_mem h
  | cons a as ih => rw [List.cons_append, rfindIdx, ih, rfindIdx]

theorem rfindIdx_sep {t : List Char} {c : Char} (hd : List Char) (h : c ∉ t) :
    rfindIdx (hd ++ c :: t) c = some hd.length := by
  have h1 : rfindIdx (c :: t) c = some 0 := by
    rw [rfindIdx, rfindIdx_eq_none_of_not_mem h, if_pos rfl]
  simpa using rfindIdx_append_right hd h1

theorem slice?_pos {l : List Char} {a b : Nat} (h1 : a ≤ b) (h2 : b ≤ l.length) :
    slice? l a b = some ((l.take b).drop a) := by
  rw [slice?, if_pos ⟨h1, h2⟩]

/-- The '/',-terminated concatenation of directory components: the middle of
a framed materialized path, so that `'/' :: slashTerminated cs` is the
normalized materialized path of an entry whose parent chain is `cs`. -/
def slashTerminated : List (List Char) → List Char
  | [] => []
  | c :: rest => c ++ '/' :: slashTerminated rest

theorem slashTerminated_append (a b : List (List Char)) :
    slashTerminated (a ++ b) = slashTerminated a ++ slashTerminated b := by
  induction a with
  | nil => rfl
  | cons c rest ih => simp [slashTerminated, ih]

theorem joinSlash_cons_append (c2 : List Char) (rest : List (List Char)) :
    joinSlash (c2 :: rest) ++ ['/'] = slashTerminated (c2 :: rest) := by
  induction rest generalizing c2 with
  | nil => simp [joinSlash, slashTerminated]
  | cons c3 rest3 ih =>
    show (c2 ++ '/' :: joinSlash (c3 :: rest3)) ++ ['/']
        = slashTerminated (c2 :: c3 :: rest3)
    rw [List.append_assoc, List.cons_append, ih c3]
    rfl

theorem joinSlash_concat (cs : List (List Char)) (d : List Char) :
    joinSlash (cs ++ [d]) = slashTerminated cs ++ d := by
  induction cs with
  | nil => simp [joinSlash, slashTerminated]
  | cons c rest ih =>
    cases rest with
    | nil => simp [joinSlash, slashTerminated]
    | cons c2 rest2 =>
      show c ++ '/' :: joinSlash ((c2 :: rest2) ++ [d])
          = slashTerminated (c :: c2 :: rest2) ++ d
      rw [ih]
      show c ++ '/' :: (slashTerminated (c2 :: rest2) ++ d)
          = (c ++ '/' :: slashTerminated (c2 :: rest2)) ++ d
      simp

theorem framed_join (ds : List (List Char)) (hne : ∀ c ∈ ds, c ≠ []) :
    (if joinSlash ds ≠ [] then '/' :: (joinSlash ds ++ ['/']) else ['/'])
      = '/' :: slashTerminated ds := by
  cases ds with
  | nil => simp [joinSlash, slashTerminated]
  | cons c rest =>
    cases rest with
    | nil =>
      have hc : c ≠ [] := hne c (List.mem_cons_self c [])
      rw [if_pos (by simpa [joinSlash] using hc)]
      simp [joinSlash, slashTerminated]
    | cons c2 rest2 =>
      rw [if_pos (by simp [joinSlash])]
      simp only [joinSlash, List.cons_append, List.append_assoc, slashTerminated]
      rw [joinSlash_cons_append]
      rfl

theorem isPrefixOf_append (R X : List OsStr) : R.isPrefixOf (R ++ X) = true := by
  induction R with
  | nil => simp [List.isPrefixOf]
  | cons a r ih => simp [List.isPrefixOf, ih]

theorem stripRoot?_append (R X : List OsStr) : stripRoot? R (R ++ X) = some X := by
  rw [stripRoot?, if_pos (isPrefixOf_append R X)]
  have h := drop_len_append R X 0
  simp only [Nat.add_zero, List.drop_zero] at h
  rw [h]

theorem allUtf8?_map (l : List (List Char)) : allUtf8? (l.map .utf8) = some l := by
  induction l with
  | nil => rfl
  | cons c rest ih => simp [allUtf8?, OsStr.toStr?, ih]

theorem replaceBackslash_eq_self : ∀ {s : List Char}, '\\' ∉ s → replaceBackslash s = s
  | [], _ => rfl
  | a :: as, h => by
    have ha : ¬(a = '\\') := fun he => h (by rw [← he]; exact List.mem_cons_self a as)
    have ih := @replaceBackslash_eq_self as fun hm => h (List.mem_cons_of_mem a hm)
    simp only [replaceBackslash, List.map_cons] at ih ⊢
    rw [if_neg ha, ih]

theorem backslash_not_mem_joinSlash :
    ∀ {ds : List (List Char)}, (∀ c ∈ ds, '\\' ∉ c) → '\\' ∉ joinSlash ds
  | [], _ => by simp [joinSlash]
  | [c], h => by simpa [joinSlash] using h c (List.mem_cons_self c [])
  | c :: c2 :: rest, h => by
    have ih := @backslash_not_mem_joinSlash (c2 :: rest)
      fun x hx => h x (List.mem_cons_of_mem c hx)
    have hc := h c (List.mem_cons_self c (c2 :: rest))
    simp only [joinSlash, List.mem_append, List.mem_cons]
    rintro (hm | hm | hm)
    · exact hc hm
    · exact absurd hm (by decide)
    · exact ih hm

theorem extract_relative_path_comps (L : Int) (R : List OsStr)
    (ds : List (List Char)) (hbs : ∀ c ∈ ds, '\\' ∉ c) :
    extract_relative_path L R (R ++ ds.map .utf8) = .ok (joinSlash ds) := by
  unfold extract_relative_path
  rw [stripRoot?_append]
  simp only [osJoin?, allUtf8?_map, Option.map_some']
  rw [replaceBackslash_eq_self (backslash_not_mem_joinSlash hbs)]

theorem map_dropLast {α β : Type} (f : α → β) :
    ∀ l : List α, (l.map f).dropLast = l.dropLast.map f
  | [] => rfl
  | [_] => rfl
  | a :: b :: rest => by
    have ih := map_dropLast f (b :: rest)
    simp only [List.map_cons, List.dropLast_cons₂] at ih ⊢
    exact congrArg (List.cons (f a)) ih

theorem extract_norm_comps (L : Int) (R : List OsStr) (ds : List (List Char))
    (hne : ∀ c ∈ ds.dropLast, c ≠ []) (hbs : ∀ c ∈ ds.dropLast, '\\' ∉ c) :
    extract_normalized_materialized_path_str L R (R ++ ds.map .utf8)
      = .ok ('/' :: slashTerminated ds.dropLast) := by
  unfold extract_normalized_materialized_path_str
  rw [stripRoot?_append]
  cases ds with
  | nil => rfl
  | cons d0 rest =>
    simp only [List.map_cons]
    rw [show (OsStr.utf8 d0 :: rest.map .utf8).dropLast
        = ((d0 :: rest).dropLast).map .utf8 from by
      rw [← List.map_cons OsStr.utf8 d0 rest, map_dropLast]]
    simp only [osJoin?, allUtf8?_map, Option.map_some']
    rw [replaceBackslash_eq_self (backslash_not_mem_joinSlash hbs)]
    rw [framed_join _ hne]

theorem new_root (L : Int) (R : List OsStr) :
    IsolatedFilePathData.new L R R true = .ok ⟨L, ['/'], true, [], [], []⟩ := by
  have h1 : extract_normalized_materialized_path_str L R R = .ok ['/'] := by
    have h := extract_norm_comps L R [] (by simp) (by simp)
    simpa [slashTerminated] using h
  have h2 : extract_relative_path L R R = .ok [] := by
    have h := extract_relative_path_comps L R [] (by simp)
    simpa [joinSlash] using h
  unfold IsolatedFilePathData.new
  rw [h1, h2]
  show (pure (⟨L, ['/'], true, if R ≠ R then prepareName R else [],
        if true = true then []
        else toLowerStr (((pathExtension? R).getD (OsStr.utf8 [])).toStr?.getD []),
        []⟩ : IsolatedFilePathData) : Except FilePathError IsolatedFilePathData)
      = Except.ok ⟨L, ['/'], true, [], [], []⟩
  simp [pure, Except.pure]

theorem new_concat (L : Int) (R : List OsStr) (cs : List (List Char)) (d : List Char)
    (b : Bool) (hne : ∀ c ∈ cs, c ≠ []) (hbs : ∀ c ∈ cs, '\\' ∉ c) (hbd : '\\' ∉ d) :
    IsolatedFilePathData.new L R (R ++ (cs ++ [d]).map .utf8) b =
      .ok ⟨L, '/' :: slashTerminated cs, b,
        ((componentStem (.utf8 d)).toStr?).getD [],
        if b then []
        else toLowerStr ((((componentExtension? (.utf8 d)).getD (.utf8 [])).toStr?).getD []),
        slashTerminated cs ++ d⟩ := by
  have hdl : (cs ++ [d]).dropLast = cs := List.dropLast_concat
  have h1 : extract_normalized_materialized_path_str L R (R ++ (cs ++ [d]).map .utf8)
      = .ok ('/' :: slashTerminated cs) := by
    have h := extract_norm_comps L R (cs ++ [d])
      (by rw [hdl]; exact hne) (by rw [hdl]; exact hbs)
    rwa [hdl] at h
  have hball : ∀ c ∈ cs ++ [d], '\\' ∉ c := by
    intro c hc
    rcases List.mem_append.mp hc with h' | h'
    · exact hbs c h'
    · rw [List.mem_singleton.mp h']; exact hbd
  have h2 : extract_relative_path L R (R ++ (cs ++ [d]).map .utf8)
      = .ok (slashTerminated cs ++ d) := by
    have h := extract_relative_path_comps L R (cs ++ [d]) hball
    rwa [joinSlash_concat] at h
  have hXne : (cs ++ [d]).map OsStr.utf8 ≠ [] := by simp
  have hRne : R ≠ R ++ (cs ++ [d]).map OsStr.utf8 := by
    intro h
    have hlen := congrArg List.length h
    rw [List.length_append] at hlen
    exact hXne (List.length_eq_zero.mp (by omega))
  have hlast : (R ++ (cs ++ [d]).map OsStr.utf8).getLast? = some (.utf8 d) := by
    rw [List.map_append, ← List.append_assoc]
    simp
  have hname : prepareName (R ++ (cs ++ [d]).map .utf8)
      = ((componentStem (.utf8 d)).toStr?).getD [] := by
    rw [prepareName, pathFileStem?, hlast]
    rfl
  have hext : pathExtension? (R ++ (cs ++ [d]).map .utf8)
      = componentExtension? (.utf8 d) := by
    rw [pathExtension?, hlast]
    rfl
  unfold IsolatedFilePathData.new
  rw [h1, h2]
  show (pure (⟨L, '/' :: slashTerminated cs, b,
      if R ≠ R ++ (cs ++ [d]).map .utf8 then prepareName (R ++ (cs ++ [d]).map .utf8)
      else [],
      if b then []
      else toLowerStr (((pathExtension? (R ++ (cs ++ [d]).map .utf8)).getD
        (.utf8 [])).toStr?.getD []),
      slashTerminated cs ++ d⟩ : IsolatedFilePathData)
        : Except FilePathError IsolatedFilePathData)
    = .ok ⟨L, '/' :: slashTerminated cs, b,
        ((componentStem (.utf8 d)).toStr?).getD [],
        if b then []
        else toLowerStr ((((componentExtension? (.utf8 d)).getD
          (.utf8 [])).toStr?).getD []),
        slashTerminated cs ++ d⟩
  rw [if_pos hRne, hname, hext]
  rfl

theorem rfind_slashTerm0 : ∀ cs : List (List Char),
    rfindIdx ('/' :: slashTerminated cs) '/' = some (slashTerminated cs).length
  | [] => by decide
  | c :: rest => by
    have ih := rfind_slashTerm0 rest
    have hsplit : ('/' :: slashTerminated (c :: rest))
        = ('/' :: c) ++ ('/' :: slashTerminated rest) := by
      show '/' :: (c ++ '/' :: slashTerminated rest) = _
      simp
    rw [hsplit, rfindIdx_append_right ('/' :: c) ih]
    congr 1
    show ('/' :: c).length + (slashTerminated rest).length
        = (c ++ '/' :: slashTerminated rest).length
    simp
    omega

theorem parent_framed (L : Int) (b : Bool) (n e r : List Char)
    (cs : List (List Char)) (d : List Char) (hd : '/' ∉ d) :
    IsolatedFilePathData.parent ⟨L, '/' :: slashTerminated (cs ++ [d]), b, n, e, r⟩
      = some ⟨L, '/' :: slashTerminated cs, true, d, [], slashTerminated cs ++ d⟩ := by
  have hsTd : slashTerminated [d] = d ++ ['/'] := rfl
  have hmp2 : ('/' :: slashTerminated (cs ++ [d]))
      = ('/' :: slashTerminated cs) ++ (d ++ ['/']) := by
    rw [slashTerminated_append, hsTd]
    simp
  have hlen : ('/' :: slashTerminated (cs ++ [d])).length
      = (slashTerminated cs).length + d.length + 2 := by
    rw [hmp2]
    simp only [List.length_cons, List.length_append, List.length_nil]
    omega
  have hcond : ¬(('/' :: slashTerminated (cs ++ [d])) = ['/']) := by
    intro h
    have h2 := congrArg List.length h
    rw [hlen] at h2
    simp at h2
  have htake : ('/' :: slashTerminated (cs ++ [d])).take
      (('/' :: slashTerminated (cs ++ [d])).length - 1)
      = ('/' :: slashTerminated cs) ++ d := by
    rw [hlen, hmp2, ← List.append_assoc]
    have hl : (('/' :: slashTerminated cs) ++ d).length
        = (slashTerminated cs).length + d.length + 1 := by
      simp only [List.length_cons, List.length_append]
      omega
    have h := take_len_append (('/' :: slashTerminated cs) ++ d) ['/'] 0
    rw [hl] at h
    simpa using h
  have hfind : rfindIdx (('/' :: slashTerminated cs) ++ d) '/'
      = some (slashTerminated cs).length :=
    (rfindIdx_append_left ('/' :: slashTerminated cs) hd).trans (rfind_slashTerm0 cs)
  have htake2 : ('/' :: slashTerminated (cs ++ [d])).take
      ((slashTerminated cs).length + 1) = '/' :: slashTerminated cs := by
    rw [hmp2]
    simp
  have hdrop : (('/' :: slashTerminated cs) ++ d).drop ((slashTerminated cs).length + 1)
      = d := by
    simp
  have hdrop1 : (('/' :: slashTerminated cs) ++ d).drop 1 = slashTerminated cs ++ d := by
    rw [List.cons_append]
    rfl
  unfold IsolatedFilePathData.parent
  show (if ('/' :: slashTerminated (cs ++ [d])) = ['/'] then
      some (⟨L, ['/'], true, [], [], []⟩ : IsolatedFilePathData)
    else
      match rfindIdx (('/' :: slashTerminated (cs ++ [d])).take
          (('/' :: slashTerminated (cs ++ [d])).length - 1)) '/' with
      | none => none
      | some last_slash_idx =>
        some (⟨L, ('/' :: slashTerminated (cs ++ [d])).take (last_slash_idx + 1), true,
          (('/' :: slashTerminated (cs ++ [d])).take
            (('/' :: slashTerminated (cs ++ [d])).length - 1)).drop (last_slash_idx + 1),
          [],
          (('/' :: slashTerminated (cs ++ [d])).take
            (('/' :: slashTerminated (cs ++ [d])).length - 1)).drop 1⟩
              : IsolatedFilePathData))
    = some (⟨L, '/' :: slashTerminated cs, true, d, [],
        slashTerminated cs ++ d⟩ : IsolatedFilePathData)
  rw [if_neg hcond, htake, hfind]
  show some (⟨L,
      ('/' :: slashTerminated (cs ++ [d])).take ((slashTerminated cs).length + 1),
      true, (('/' :: slashTerminated cs) ++ d).drop ((slashTerminated cs).length + 1),
      [], (('/' :: slashTerminated cs) ++ d).drop 1⟩ : IsolatedFilePathData)
    = some (⟨L, '/' :: slashTerminated cs, true, d, [],
      slashTerminated cs ++ d⟩ : IsolatedFilePathData)
  rw [htake2, hdrop, hdrop1]

/-- Claim C5 (amended): parent commutes with construction provided the path
components are free of separator characters ('/' and '\\') and non-empty,
and the containing directory's name has no embedded extension (its file stem
is the whole name; `new` stores a directory's file stem as its name, so a
dotted directory name breaks the original claim, see the counterexample).
The path P is `R ++ cs ++ [f]`, its containing directory `R ++ cs`. -/
theorem claim_C5_amended (L : Int) (R : List OsStr) (cs : List (List Char))
    (f : List Char)
    (hne : ∀ c ∈ cs, c ≠ []) (hsl : ∀ c ∈ cs, '/' ∉ c) (hbs : ∀ c ∈ cs, '\\' ∉ c)
    (hbf : '\\' ∉ f)
    (hstem : ∀ l, cs.getLast? = some l → componentStem (.utf8 l) = .utf8 l) :
    ∃ k1 k2,
      IsolatedFilePathData.new L R (R ++ (cs ++ [f]).map .utf8) false = .ok k1 ∧
      IsolatedFilePathData.new L R (R ++ cs.map .utf8) true = .ok k2 ∧
      k1.parent = some k2 := by
  rcases List.eq_nil_or_concat cs with hcs | ⟨cs', d, hcs⟩
  · subst hcs
    have h1 := new_concat L R [] f false (by simp) (by simp) hbf
    have h2 : IsolatedFilePathData.new L R (R ++ ([] : List (List Char)).map .utf8) true
        = .ok ⟨L, ['/'], true, [], [], []⟩ := by
      simpa using new_root L R
    exact ⟨_, _, h1, h2, rfl⟩
  · rw [List.concat_eq_append] at hcs
    subst hcs
    have hne' : ∀ c ∈ cs', c ≠ [] := fun c hc => hne c (List.mem_append_left _ hc)
    have hbs' : ∀ c ∈ cs', '\\' ∉ c := fun c hc => hbs c (List.mem_append_left _ hc)
    have hbd : '\\' ∉ d := hbs d (List.mem_append_right _ (List.mem_singleton_self d))
    have hdl : '/' ∉ d := hsl d (List.mem_append_right _ (List.mem_singleton_self d))
    have h1 := new_concat L R (cs' ++ [d]) f false hne hbs hbf
    have h2 := new_concat L R cs' d true hne' hbs' hbd
    have hd2 : componentStem (.utf8 d) = .utf8 d :=
      hstem d (List.getLast?_concat cs')
    have hname : ((componentStem (OsStr.utf8 d)).toStr?).getD [] = d := by
      rw [hd2]
      rfl
    have hfix : (⟨L, '/' :: slashTerminated cs', true,
        ((componentStem (OsStr.utf8 d)).toStr?).getD [],
        if true then []
        else toLowerStr ((((componentExtension? (OsStr.utf8 d)).getD
          (.utf8 [])).toStr?).getD []),
        slashTerminated cs' ++ d⟩ : IsolatedFilePathData)
        = ⟨L, '/' :: slashTerminated cs', true, d, [], slashTerminated cs' ++ d⟩ := by
      rw [hname]
      rfl
    have h2' := h2.trans (congrArg Except.ok hfix)
    exact ⟨_, _, h1, h2', parent_framed L false _ _ _ cs' d hdl⟩

/-- Claim C5 (witness): the amended statement at the concrete path
"r/a/b.txt" inside root "r". -/
theorem claim_C5_witness :
    ∃ k1 k2,
      IsolatedFilePathData.new 1 [.utf8 (strOf "r")]
        ([.utf8 (strOf "r")] ++ ([strOf "a"] ++ [strOf "b.txt"]).map .utf8) false
        = .ok k1 ∧
      IsolatedFilePathData.new 1 [.utf8 (strOf "r")]
        ([.utf8 (strOf "r")] ++ [strOf "a"].map .utf8) true = .ok k2 ∧
      k1.parent = some k2 :=
  claim_C5_amended 1 [.utf8 (strOf "r")] [strOf "a"] (strOf "b.txt")
    (by decide) (by decide) (by decide) (by decide)
    (fun l hl => by
      simp only [List.getLast?_singleton, Option.some.injEq] at hl
      subst hl
      decide)

theorem slice?_some {l : List Char} {a b : Nat} {t : List Char}
    (h : slice? l a b = some t) : t = (l.take b).drop a := by
  unfold slice? at h
  split at h
  · exact (Option.some.inj h).symm
  · exact Option.noConfusion h

theorem sep_ext_cases (s : List Char) (b : Bool) (mp : List Char)
    (n? e? : Option (List Char))
    (h : IsolatedFilePathData.separate_path_name_and_extension_from_str s b
      = some (mp, n?, e?)) :
    e? = none ∨ ∃ i, e? = some (s.drop i) := by
  unfold IsolatedFilePathData.separate_path_name_and_extension_from_str at h
  simp only [] at h
  repeat' split at h
  all_goals
    first
      | exact Option.noConfusion h
      | (left
         have hkey := Option.some.inj h
         exact (congrArg (fun t => t.2.2) hkey).symm)
      | (right
         rename_i mp2 nm ex h1 h2 hex
         have hkey := Option.some.inj h
         have he := congrArg
           (fun t : List Char × Option (List Char) × Option (List Char) => t.2.2) hkey
         have hex2 := slice?_some hex
         rw [List.take_length] at hex2
         subst hex2
         exact ⟨_, he.symm⟩)

/-- Claim C3 (amended): only `new`/`construct_from_path` lowercases the
extension; `parent` always produces an empty extension; `from_db_data`
stores the given extension text verbatim; `from_relative_str` stores a
verbatim suffix of its input (or empty), so those two are lowercase only
when the input text is. -/
theorem claim_C3_amended :
    (∀ (L : Int) (root p : List OsStr) (d : Bool) (k : IsolatedFilePathData),
        IsolatedFilePathData.new L root p d = .ok k →
        toLowerStr k.extension = k.extension) ∧
    (∀ k k2 : IsolatedFilePathData, k.parent = some k2 → k2.extension = []) ∧
    (∀ (L : Int) (d : Bool) (mp n e : List Char) (k : IsolatedFilePathData),
        IsolatedFilePathData.from_db_data L d mp n e = some k → k.extension = e) ∧
    (∀ (L : Int) (s : List Char) (k : IsolatedFilePathData),
        IsolatedFilePathData.from_relative_str L s = some k →
        ∃ i, k.extension = s.drop i) := by
  refine ⟨?_, ?_, ?_, ?_⟩
  · intro L root p d k hk
    unfold IsolatedFilePathData.new at hk
    cases h1 : extract_normalized_materialized_path_str L root p with
    | error e1 => rw [h1] at hk; exact Except.noConfusion hk
    | ok mp =>
      rw [h1] at hk
      cases h2 : extract_relative_path L root p with
      | error e2 => rw [h2] at hk; exact Except.noConfusion hk
      | ok rel =>
        rw [h2] at hk
        have hkey := Except.ok.inj hk
        rw [← hkey]
        show toLowerStr (if d then []
            else toLowerStr ((((pathExtension? p).getD (.utf8 [])).toStr?).getD []))
          = (if d then []
            else toLowerStr ((((pathExtension? p).getD (.utf8 [])).toStr?).getD []))
        cases d
        · exact toLowerStr_idem _
        · rfl
  · intro k k2 hk
    unfold IsolatedFilePathData.parent at hk
    simp only [] at hk
    by_cases hmp : k.materialized_path = ['/']
    · rw [if_pos hmp] at hk
      have hkey := Option.some.inj hk
      rw [← hkey]
    · rw [if_neg hmp] at hk
      cases hr : rfindIdx (k.materialized_path.take (k.materialized_path.length - 1))
          '/' with
      | none => rw [hr] at hk; exact Option.noConfusion hk
      | some i =>
        rw [hr] at hk
        have hkey := Option.some.inj hk
        rw [← hkey]
  · intro L d mp n e k hk
    unfold IsolatedFilePathData.from_db_data at hk
    cases ha : assemble_relative_path mp n e d with
    | none => rw [ha] at hk; exact Option.noConfusion hk
    | some rel =>
      rw [ha] at hk
      have hkey := Option.some.inj hk
      rw [← hkey]
  · intro L s k hk
    unfold IsolatedFilePathData.from_relative_str at hk
    simp only [] at hk
    cases hs : IsolatedFilePathData.separate_path_name_and_extension_from_str s
        (endsWithChar s '/') with
    | none => rw [hs] at hk; exact Option.noConfusion hk
    | some r =>
      rw [hs] at hk
      have hkey := Option.some.inj hk
      obtain ⟨mpv, n?, e?⟩ := r
      rcases sep_ext_cases s (endsWithChar s '/') mpv n? e? hs with he | ⟨i, he⟩
      · subst he
        rw [← hkey]
        exact ⟨s.length, by simp⟩
      · subst he
        rw [← hkey]
        exact ⟨i, rfl⟩

/-- Claim C3 (witness): the amended statement exercised at concrete inputs
for each of the four constructors. -/
theorem claim_C3_witness :
    toLowerStr (strOf "txt") = strOf "txt" ∧
    (⟨1, strOf "/", true, strOf "a", [], strOf "a"⟩
      : IsolatedFilePathData).extension = [] ∧
    (⟨1, strOf "/", false, strOf "f", strOf "TXT", strOf "f.TXT"⟩
      : IsolatedFilePathData).extension = strOf "TXT" ∧
    (∃ i, strOf "TXT" = (strOf "a/f.TXT").drop i) :=
  ⟨claim_C3_amended.1 1 [] [.utf8 (strOf "A.TXT")] false
      ⟨1, ['/'], false, strOf "A", strOf "txt", strOf "A.TXT"⟩ (by decide),
   claim_C3_amended.2.1 ⟨1, strOf "/a/", true, strOf "x", strOf "q", strOf "r"⟩
      ⟨1, strOf "/", true, strOf "a", [], strOf "a"⟩ (by decide),
   claim_C3_amended.2.2.1 1 false (strOf "/") (strOf "f") (strOf "TXT")
      ⟨1, strOf "/", false, strOf "f", strOf "TXT", strOf "f.TXT"⟩ (by decide),
   claim_C3_amended.2.2.2 1 (strOf "a/f.TXT")
      ⟨1, strOf "a", false, strOf "f", strOf "TXT", strOf "a/f.TXT"⟩ (by decide)⟩

theorem allUtf8?_isSome : ∀ l : List OsStr, (allUtf8? l).isSome = representable l
  | [] => rfl
  | c :: rest => by
    have ih := allUtf8?_isSome rest
    have hall : representable (c :: rest) = (c.toStr?.isSome && representable rest) := by
      simp [representable, List.all_cons]
    cases hc : c.toStr? with
    | none =>
      have hL : allUtf8? (c :: rest) = none := by
        unfold allUtf8?
        rw [hc]
      rw [hL, hall, hc]
      simp
    | some sc =>
      cases hr : allUtf8? rest with
      | none =>
        have hL : allUtf8? (c :: rest) = none := by
          unfold allUtf8?
          rw [hc, hr]
        rw [hL, hall, hc, ← ih, hr]
        rfl
      | some t =>
        have hL : allUtf8? (c :: rest) = some (sc :: t) := by
          unfold allUtf8?
          rw [hc, hr]
        rw [hL, hall, hc, ← ih, hr]
        rfl

theorem osJoin?_eq_none {l : List OsStr} (h : representable l = false) :
    osJoin? l = none := by
  unfold osJoin?
  cases ha : allUtf8? l with
  | none => rfl
  | some t =>
    have hs := allUtf8?_isSome l
    rw [ha, h] at hs
    exact Bool.noConfusion hs

theorem osJoin?_eq_some {l : List OsStr} (h : representable l = true) :
    ∃ t, osJoin? l = some t := by
  unfold osJoin?
  cases ha : allUtf8? l with
  | none =>
    have hs := allUtf8?_isSome l
    rw [ha, h] at hs
    exact Bool.noConfusion hs
  | some t => exact ⟨joinSlash t, rfl⟩

theorem representable_dropLast {l : List OsStr} (h : representable l = true) :
    representable l.dropLast = true := by
  unfold representable at *
  rw [List.all_eq_true] at *
  intro c hc
  exact h c ((List.dropLast_sublist l).subset hc)

theorem extract_norm_strip_nil (L : Int) (root p : List OsStr)
    (hstrip : stripRoot? root p = some []) :
    extract_normalized_materialized_path_str L root p = .ok ['/'] := by
  unfold extract_normalized_materialized_path_str
  rw [hstrip]

theorem extract_norm_strip_cons (L : Int) (root p : List OsStr) (a : OsStr)
    (rest : List OsStr) (hstrip : stripRoot? root p = some (a :: rest)) :
    extract_normalized_materialized_path_str L root p =
      match osJoin? ((a :: rest).dropLast) with
      | some s => .ok (if s ≠ [] then '/' :: (replaceBackslash s ++ ['/']) else ['/'])
      | none => .error (.nonUtf8Path p) := by
  unfold extract_normalized_materialized_path_str
  rw [hstrip]

theorem extract_rel_strip_some (L : Int) (root p rem : List OsStr)
    (hstrip : stripRoot? root p = some rem) :
    extract_relative_path L root p =
      match osJoin? rem with
      | some s => .ok (replaceBackslash s)
      | none => .error (.nonUtf8Path p) := by
  unfold extract_relative_path
  rw [hstrip]

/-- Claim C9 (confirmed): the normalizer fails with
`UnableToExtractMaterializedPath` exactly when the absolute path is not
prefixed by the location root; when it is prefixed but the remainder after
stripping cannot be represented as text it fails with `NonUtf8Path`; and
otherwise it succeeds. -/
theorem claim_C9_normalization_errors (L : Int) (root p : List OsStr) :
    (normalizePath L root p = .error (.unableToExtractMaterializedPath L p)
        ↔ root.isPrefixOf p = false) ∧
    (root.isPrefixOf p = true → representable (p.drop root.length) = false →
        normalizePath L root p = .error (.nonUtf8Path p)) ∧
    (root.isPrefixOf p = true → representable (p.drop root.length) = true →
        ∃ mp rel, normalizePath L root p = .ok (mp, rel)) := by
  by_cases hpre : root.isPrefixOf p = true
  case neg =>
    have hpre' : root.isPrefixOf p = false := by
      cases hb : root.isPrefixOf p
      · rfl
      · exact absurd hb hpre
    have hstrip : stripRoot? root p = none := by
      unfold stripRoot?
      rw [if_neg hpre]
    have h1 : extract_normalized_materialized_path_str L root p
        = .error (.unableToExtractMaterializedPath L p) := by
      unfold extract_normalized_materialized_path_str
      rw [hstrip]
    have hN : normalizePath L root p
        = .error (.unableToExtractMaterializedPath L p) := by
      unfold normalizePath
      rw [h1]
      rfl
    exact ⟨⟨fun _ => hpre', fun _ => hN⟩,
      fun hc => absurd hc hpre, fun hc => absurd hc hpre⟩
  case pos =>
    have hstrip : stripRoot? root p = some (p.drop root.length) := by
      unfold stripRoot?
      rw [if_pos hpre]
    by_cases hr : representable (p.drop root.length) = true
    case pos =>
      obtain ⟨t, ht⟩ := osJoin?_eq_some hr
      have h2 : extract_relative_path L root p = .ok (replaceBackslash t) := by
        rw [extract_rel_strip_some L root p _ hstrip, ht]
      have h1 : ∃ mp, extract_normalized_materialized_path_str L root p = .ok mp := by
        cases hremc : p.drop root.length with
        | nil =>
          rw [hremc] at hstrip
          exact ⟨['/'], extract_norm_strip_nil L root p hstrip⟩
        | cons a rest =>
          rw [hremc] at hstrip
          have hdl : representable ((a :: rest).dropLast) = true := by
            rw [← hremc]
            exact representable_dropLast hr
          obtain ⟨t2, ht2⟩ := osJoin?_eq_some hdl
          refine ⟨if t2 ≠ [] then '/' :: (replaceBackslash t2 ++ ['/']) else ['/'], ?_⟩
          rw [extract_norm_strip_cons L root p a rest hstrip, ht2]
      obtain ⟨mp, h1⟩ := h1
      have hN : normalizePath L root p = .ok (mp, replaceBackslash t) := by
        unfold normalizePath
        rw [h1, h2]
        rfl
      refine ⟨⟨?_, ?_⟩, ?_, ?_⟩
      · intro hcontra
        rw [hN] at hcontra
        exact Except.noConfusion hcontra
      · intro hfalse
        rw [hpre] at hfalse
        exact Bool.noConfusion hfalse
      · intro _ hfalse
        rw [hfalse] at hr
        exact Bool.noConfusion hr
      · intro _ _
        exact ⟨mp, replaceBackslash t, hN⟩
    case neg =>
      have hr' : representable (p.drop root.length) = false := by
        cases hb : representable (p.drop root.length)
        · rfl
        · exact absurd hb hr
      have hremne : p.drop root.length ≠ [] := by
        intro hnil
        rw [hnil] at hr'
        exact Bool.noConfusion hr'
      have hrelerr : extract_relative_path L root p = .error (.nonUtf8Path p) := by
        rw [extract_rel_strip_some L root p _ hstrip, osJoin?_eq_none hr']
      have hN : normalizePath L root p = .error (.nonUtf8Path p) := by
        unfold normalizePath
        cases hremc : p.drop root.length with
        | nil => exact absurd hremc hremne
        | cons a rest =>
          rw [hremc] at hstrip
          by_cases hdl : representable ((a :: rest).dropLast) = true
          · obtain ⟨t2, ht2⟩ := osJoin?_eq_some hdl
            rw [extract_norm_strip_cons L root p a rest hstrip, ht2, hrelerr]
            rfl
          · have hdl' : representable ((a :: rest).dropLast) = false := by
              cases hb : representable ((a :: rest).dropLast)
              · rfl
              · exact absurd hb hdl
            rw [extract_norm_strip_cons L root p a rest hstrip,
              osJoin?_eq_none hdl']
            rfl
      refine ⟨⟨?_, ?_⟩, ?_, ?_⟩
      · intro hcontra
        rw [hN] at hcontra
        have hinj := Except.error.inj hcontra
        exact FilePathError.noConfusion hinj
      · intro hfalse
        rw [hpre] at hfalse
        exact Bool.noConfusion hfalse
      · intro _ _
        exact hN
      · intro _ htrue
        rw [htrue] at hr'
        exact Bool.noConfusion hr'

/-- Claim C9 (witness): the three behaviours at concrete paths: a path
outside the root, a path whose remainder holds an undecodable component,
and a clean path. -/
theorem claim_C9_witness :
    normalizePath 1 [.utf8 (strOf "r")] [.utf8 (strOf "x")]
      = .error (.unableToExtractMaterializedPath 1 [.utf8 (strOf "x")]) ∧
    normalizePath 1 [.utf8 (strOf "r")] [.utf8 (strOf "r"), .blob 0]
      = .error (.nonUtf8Path [.utf8 (strOf "r"), .blob 0]) ∧
    (∃ mp rel, normalizePath 1 [.utf8 (strOf "r")]
      [.utf8 (strOf "r"), .utf8 (strOf "a")] = .ok (mp, rel)) :=
  ⟨(claim_C9_normalization_errors 1 [.utf8 (strOf "r")] [.utf8 (strOf "x")]).1.mpr
      (by decide),
   (claim_C9_normalization_errors 1 [.utf8 (strOf "r")]
      [.utf8 (strOf "r"), .blob 0]).2.1 (by decide) (by decide),
   (claim_C9_normalization_errors 1 [.utf8 (strOf "r")]
      [.utf8 (strOf "r"), .utf8 (strOf "a")]).2.2 (by decide) (by decide)⟩

theorem sep_isSome_of_ne_nil (s : List Char) (b : Bool) (hs : s ≠ []) :
    (IsolatedFilePathData.separate_path_name_and_extension_from_str s b).isSome
      = true := by
  have hlen1 : 1 ≤ s.length := List.length_pos.mpr hs
  have hfs : (rfindIdx s '/').getD 0 + 1 ≤ s.length := by
    cases hf : rfindIdx s '/' with
    | none => simpa using hlen1
    | some i =>
      have := rfindIdx_lt_length hf
      simp only [Option.getD_some]
      omega
  unfold IsolatedFilePathData.separate_path_name_and_extension_from_str
  simp only []
  repeat' split
  all_goals try rfl
  · rename_i hne1 hb x heq
    rw [slice?_pos (Nat.zero_le _) (by split <;> omega)] at heq
    exact Option.noConfusion heq
  · rename_i hne1 hb x3 sub heq x2 x1 hfail
    have hsub := slice?_some heq
    have hlci : (if endsWithChar s '/' = true then s.length - 1 else s.length)
        ≤ s.length := by
      split <;> omega
    have hlci1 : 1 ≤ (if endsWithChar s '/' = true then s.length - 1
        else s.length) := by
      split <;> omega
    have hsublen : sub.length
        = (if endsWithChar s '/' = true then s.length - 1 else s.length) := by
      rw [hsub, List.drop_zero, List.length_take]
      exact min_eq_left hlci
    have hfirst : (rfindIdx sub '/').getD 0 + 1
        ≤ (if endsWithChar s '/' = true then s.length - 1 else s.length) := by
      cases hf : rfindIdx sub '/' with
      | none => simpa using hlci1
      | some i =>
        have hlt := rfindIdx_lt_length hf
        rw [hsublen] at hlt
        simp only [Option.getD_some]
        omega
    exact (hfail _ _ (slice?_pos (Nat.zero_le _) (le_trans hfirst hlci))
      (slice?_pos hfirst hlci)).elim
  · rename_i hne1 hb x heq
    rw [slice?_pos hfs (le_refl _)] at heq
    exact Option.noConfusion heq
  · rename_i hne1 hb x5 sub heq1 x4 j heq x3 x2 x1 hfail
    have hsub := slice?_some heq1
    rw [List.take_length] at hsub
    have hjlt := rfindIdx_lt_length heq
    have hsublen : sub.length = s.length - ((rfindIdx s '/').getD 0 + 1) := by
      rw [hsub, List.length_drop]
    rw [hsublen] at hjlt
    exact (hfail _ _ _
      (slice?_pos (Nat.zero_le _) (by omega))
      (slice?_pos (by omega) (by omega))
      (slice?_pos (by omega) (by omega))).elim
  · rename_i hne1 hb x4 sub heq1 x3 heq x2 x1 hfail
    exact (hfail _ _
      (slice?_pos (Nat.zero_le _) (by omega))
      heq1).elim

/-- Claim C10 (confirmed): `from_relative_str` panics on the empty string
(the file branch slices `source[1..]` past the end, `none` in the
embedding), and for every non-empty input no out-of-bounds slice occurs:
the operation returns a key. -/
theorem claim_C10_totality (L : Int) :
    IsolatedFilePathData.from_relative_str L [] = none ∧
    ∀ s : List Char, s ≠ [] →
      (IsolatedFilePathData.from_relative_str L s).isSome = true := by
  constructor
  · rfl
  · intro s hs
    unfold IsolatedFilePathData.from_relative_str
    simp only []
    cases hsep : IsolatedFilePathData.separate_path_name_and_extension_from_str s
        (endsWithChar s '/') with
    | none =>
      have h := sep_isSome_of_ne_nil s (endsWithChar s '/') hs
      rw [hsep] at h
      exact Bool.noConfusion h
    | some r => rfl

/-- Claim C10 (witness): the totality statement at the empty string and at
the concrete non-empty input "a". -/
theorem claim_C10_witness :
    IsolatedFilePathData.from_relative_str 7 [] = none ∧
    (IsolatedFilePathData.from_relative_str 7 (strOf "a")).isSome = true :=
  ⟨(claim_C10_totality 7).1, (claim_C10_totality 7).2 (strOf "a") (by decide)⟩

theorem drop_sep (h t : List Char) (k : Nat) :
    (h ++ '/' :: t).drop (h.length + 1 + k) = t.drop k := by
  rw [Nat.add_assoc, drop_len_append h ('/' :: t) (1 + k), Nat.add_comm 1 k]
  rfl

theorem take_sep (h t : List Char) (k : Nat) :
    (h ++ '/' :: t).take (h.length + 1 + k) = h ++ '/' :: t.take k := by
  rw [Nat.add_assoc, take_len_append h ('/' :: t) (1 + k), Nat.add_comm 1 k]
  rfl

/-- Claim C6 (amended): on a non-root relative text containing a '/', with
`is_dir = false`, the function splits the tail after the rightmost '/' by the
pure last-dot rule WITHOUT the hidden-file exception of the bare splitter: a
dot at any tail position, even position 0, separates name from extension, so
a hidden file yields an empty name and its remainder as the extension. -/
theorem claim_C6_amended (h t : List Char) (ht : '/' ∉ t)
    (hne : ¬(h = [] ∧ t = [])) :
    IsolatedFilePathData.separate_path_name_and_extension_from_str
        (h ++ '/' :: t) false =
      match rfindIdx t '.' with
      | some j => some (h, some (t.take j), some (t.drop (j + 1)))
      | none => some (h, some t, none) := by
  have hlen : (h ++ '/' :: t).length = h.length + 1 + t.length := by
    simp only [List.length_append, List.length_cons]
    omega
  have hne1 : ¬((h ++ '/' :: t).length = 1) := by
    rw [hlen]
    intro hcontra
    have hh : h.length = 0 ∧ t.length = 0 := by omega
    exact hne ⟨List.length_eq_zero.mp hh.1, List.length_eq_zero.mp hh.2⟩
  have hfind : rfindIdx (h ++ '/' :: t) '/' = some h.length := rfindIdx_sep h ht
  have hmp : slice? (h ++ '/' :: t) 0 h.length = some h := by
    rw [slice?_pos (Nat.zero_le _) (by rw [hlen]; omega), List.drop_zero]
    congr 1
    simp
  have hslice1 : slice? (h ++ '/' :: t) (h.length + 1) (h ++ '/' :: t).length
      = some t := by
    rw [slice?_pos (by rw [hlen]; omega) (le_refl _), List.take_length]
    congr 1
    simp
  unfold IsolatedFilePathData.separate_path_name_and_extension_from_str
  simp only []
  rw [if_neg hne1, if_neg (by simp : ¬(false = true)), hfind]
  simp only [Option.getD_some]
  rw [hslice1]
  show (match rfindIdx t '.' with
    | some j =>
      match slice? (h ++ '/' :: t) 0 h.length,
            slice? (h ++ '/' :: t) (h.length + 1) (h.length + 1 + j),
            slice? (h ++ '/' :: t) (h.length + 1 + j + 1) (h ++ '/' :: t).length with
      | some mp, some nm, some ex => some (mp, some nm, some ex)
      | _, _, _ => none
    | none =>
      match slice? (h ++ '/' :: t) 0 h.length, some t with
      | some mp, some nm => some (mp, some nm, none)
      | _, _ => none)
    = match rfindIdx t '.' with
      | some j => some (h, some (t.take j), some (t.drop (j + 1)))
      | none => some (h, some t, none)
  cases hj : rfindIdx t '.' with
  | some j =>
    have hjlt : j < t.length := rfindIdx_lt_length hj
    have hnm : slice? (h ++ '/' :: t) (h.length + 1) (h.length + 1 + j)
        = some (t.take j) := by
      rw [slice?_pos (by omega) (by rw [hlen]; omega), take_sep h t j]
      congr 1
      simp
    have hex : slice? (h ++ '/' :: t) (h.length + 1 + j + 1) (h ++ '/' :: t).length
        = some (t.drop (j + 1)) := by
      rw [slice?_pos (by rw [hlen]; omega) (le_refl _), List.take_length]
      congr 1
      rw [show h.length + 1 + j + 1 = h.length + 1 + (j + 1) from by omega]
      exact drop_sep h t (j + 1)
    rw [hmp]
    show (match some h, slice? (h ++ '/' :: t) (h.length + 1) (h.length + 1 + j),
        slice? (h ++ '/' :: t) (h.length + 1 + j + 1) (h ++ '/' :: t).length with
      | some mp, some nm, some ex => some (mp, some nm, some ex)
      | _, _, _ => none)
      = some (h, some (t.take j), some (t.drop (j + 1)))
    rw [hnm, hex]
  | none =>
    rw [hmp]

/-- Claim C6 (witness): the amended rule at the hidden-file input
"dir/.bashrc": name is empty and the extension is "bashrc". -/
theorem claim_C6_witness :
    IsolatedFilePathData.separate_path_name_and_extension_from_str
        (strOf "dir" ++ '/' :: strOf ".bashrc") false
      = some (strOf "dir", some [], some (strOf "bashrc")) :=
  claim_C6_amended (strOf "dir") (strOf ".bashrc") (by decide) (by decide)
